import Mathlib

/-!
Verification development for the patent-claims processor (`src/app.py`).

The core under specification is the claim-text classifier `clean_claim_text`,
the details-sheet transformer `process_details_sheet`, and the info-sheet
builder `process_info_sheet`.  Python strings are embedded as `List Char`,
nullable spreadsheet cells as the inductive `PyVal` (None / str / int); the
spreadsheet I/O layer is outside the model, exactly as the spec excludes it.
openpyxl's `iter_rows` hands every row with the full sheet width, so the
out-of-range defaults used by `List.getD` / `List.set` below are never
exercised on inputs that the excluded I/O layer can actually produce.
-/

namespace PatentClaims

/-- Embedded Python cell value: `None`, a string, or an integer.  Dates are
modelled separately (already parsed) where needed. -/
inductive PyVal where
  | vNone : PyVal
  | vStr : List Char → PyVal
  | vInt : Int → PyVal
deriving DecidableEq, Repr

/-- Python truthiness of a cell value (`if claim_cell:` / `if not claim`). -/
def pyTruthy : PyVal → Bool
  | .vNone => false
  | .vStr s => !s.isEmpty
  | .vInt n => decide (n ≠ 0)

/-- Python `str(...)` applied to a cell value, as used by
`str(claim_cell)` in `process_details_sheet`. -/
def pyStr : PyVal → List Char
  | .vNone => "None".data
  | .vStr s => s
  | .vInt n => (toString n).data

/-- Whitespace as stripped by Python `str.strip()` restricted to the ASCII
range (`' '`, `\t`, `\n`, `\r`, `\x0b`, `\x0c`); the claims never exercise
non-ASCII whitespace. -/
def isPySpace (c : Char) : Bool :=
  c = ' ' || c = '\t' || c = '\n' || c = '\r' || c = '\x0b' || c = '\x0c'

/-- Leading-whitespace strip (left half of `str.strip()`). -/
def ltrimChars (s : List Char) : List Char := s.dropWhile isPySpace

/-- Trailing-whitespace strip (right half of `str.strip()`). -/
def rtrimChars (s : List Char) : List Char :=
  (s.reverse.dropWhile isPySpace).reverse

/-- Python `str.strip()`. -/
def pyStrip (s : List Char) : List Char := rtrimChars (ltrimChars s)

/-- Embeds `remove_non_ascii` from `src/app.py` (the string branch): keep
exactly the characters with code point below 128. -/
def remove_non_ascii (s : List Char) : List Char :=
  s.filter (fun c => decide (c.toNat < 128))

/-- Python `str.lower()` on ASCII text: `Char.toLower` maps `A`-`Z` down and
leaves everything else unchanged, which agrees with Python on the
post-`remove_non_ascii` strings it is applied to. -/
def lowerChars (s : List Char) : List Char := s.map Char.toLower

/-- Python `pat in s` substring test. -/
def hasSub (pat s : List Char) : Bool := decide (pat <:+: s)

/-- Category tags assigned by `clean_claim_text`. -/
inductive Tag where
  | cancel | CRM | delete | paragraph | article | clause | probableDependent
deriving DecidableEq, Repr

/-- The string form of each tag, as appended to the `comments` list in
`clean_claim_text`. -/
def tagStr : Tag → List Char
  | .cancel => "cancel".data
  | .CRM => "CRM".data
  | .delete => "delete".data
  | .paragraph => "paragraph".data
  | .article => "article".data
  | .clause => "clause".data
  | .probableDependent => "probable dependent".data

/-- The four substrings of the CRM check in `clean_claim_text`. -/
def crmPats : List (List Char) :=
  ["non-transitory computer-readable medium".data,
   "computer-readable medium".data,
   "computer program".data,
   "computer".data]

/-- Word character for the regex `\b` and `\w` classes on ASCII text. -/
def isWordChar (c : Char) : Bool := c.isAlphanum || c = '_'

/-- After the literal `claim`/`claims` of the regex
`\bclaims?\b\s*\d+`: the next character must make a word boundary
(non-word), and skipping whitespace must land on a digit. -/
def claimTailOk : List Char → Bool
  | [] => false
  | c :: rest =>
    !isWordChar c &&
      (match (c :: rest).dropWhile isPySpace with
       | [] => false
       | d :: _ => d.isDigit)

/-- Match of `claims?\b\s*\d+` at the head of a (lowercased) string.  When the
literal `claim` is followed by `s`, the `s`-less alternative dies on the `\b`
between two word characters, so only the remainder after `s` is tested. -/
def probDepAt : List Char → Bool
  | 'c' :: 'l' :: 'a' :: 'i' :: 'm' :: 's' :: rest => claimTailOk rest
  | 'c' :: 'l' :: 'a' :: 'i' :: 'm' :: rest => claimTailOk rest
  | _ => false

/-- Word boundary to the left of a match position: start of string or a
non-word previous character. -/
def boundaryBefore : Option Char → Bool
  | none => true
  | some c => !isWordChar c

/-- Scan for `re.search(r'\bclaims?\b\s*\d+', text, re.IGNORECASE)`,
run over the lowercased text. -/
def probDepScan : Option Char → List Char → Bool
  | _, [] => false
  | prev, c :: rest =>
    (boundaryBefore prev && probDepAt (c :: rest)) || probDepScan (some c) rest

/-- The regex check of `clean_claim_text` (case-insensitive, so performed on
the lowercased text). -/
def probDepRegex (t : List Char) : Bool := probDepScan none (lowerChars t)

/-- The comments accumulated by `clean_claim_text` on the normalized text
`t`: the six substring checks, the dependent-claim regex, then the
under-200-characters fallback. -/
def mkComments (t : List Char) : List Tag :=
  let l := lowerChars t
  let base :=
    (if hasSub "(canceled)".data l then [Tag.cancel] else []) ++
    (if crmPats.any (fun p => hasSub p l) then [Tag.CRM] else []) ++
    (if hasSub "delete".data l then [Tag.delete] else []) ++
    (if hasSub "paragraph".data l then [Tag.paragraph] else []) ++
    (if hasSub "article".data l then [Tag.article] else []) ++
    (if hasSub "clause".data l then [Tag.clause] else []) ++
    (if probDepRegex t then [Tag.probableDependent] else [])
  if Tag.probableDependent ∉ base ∧ t.length < 200 then
    base ++ [Tag.probableDependent]
  else base

/-- Embeds `clean_claim_text` from `src/app.py`: falsy or non-string input
yields `("", [])`; otherwise the text is stripped, non-ASCII characters are
removed, and the tag rules run on the result. -/
def clean_claim_text (claim : PyVal) : List Char × List Tag :=
  match claim with
  | .vStr s =>
    if s.isEmpty then ([], [])
    else
      let text := remove_non_ascii (pyStrip s)
      (text, mkComments text)
  | _ => ([], [])

/-- Python `str.split(sep)` for a one-character separator. -/
def splitOnChar (sep : Char) : List Char → List (List Char)
  | [] => [[]]
  | c :: rest =>
    if c = sep then [] :: splitOnChar sep rest
    else
      match splitOnChar sep rest with
      | [] => [[c]]
      | s :: ss => (c :: s) :: ss

/-- Python `sep.join(xs)`. -/
def pyJoin (sep : List Char) : List (List Char) → List Char
  | [] => []
  | [x] => x
  | x :: xs => x ++ sep ++ pyJoin sep xs

/-- The tags whose presence rejects a fragment
(`any(c in comments for c in [...])` in `process_details_sheet`). -/
def rejectTagList : List Tag :=
  [Tag.cancel, Tag.CRM, Tag.delete, Tag.paragraph, Tag.article, Tag.clause]

/-- Reject decision of `process_details_sheet` for a fragment's comments. -/
def isRejected (cs : List Tag) : Bool :=
  rejectTagList.any (fun c => cs.contains c)

/-- Python `', '.join(comments)`. -/
def joinTags (cs : List Tag) : List Char :=
  List.intercalate ", ".data (cs.map tagStr)

/-- The fragments processed for one claim cell: a falsy cell contributes no
fragments, otherwise the stringified cell is split on `|`. -/
def partsOfCell (cell : PyVal) : List (List Char) :=
  if pyTruthy cell then splitOnChar '|' (pyStr cell) else []

/-- One iteration of the fragment loop of `process_details_sheet`: a rejected
fragment appends a `[key, cleaned_text, ', '.join(comments)]` record, a kept
fragment appends its cleaned text. -/
def rowStep (key : PyVal) (acc : List (List Char) × List (List PyVal))
    (part : List Char) : List (List Char) × List (List PyVal) :=
  let r := clean_claim_text (.vStr part)
  if isRejected r.2 then
    (acc.1, acc.2 ++ [[key, .vStr r.1, .vStr (joinTags r.2)]])
  else
    (acc.1 ++ [r.1], acc.2)

/-- One loop iteration of `process_details_sheet` over a row: split the claim
cell on `|`, classify each fragment, accumulate kept texts and rejected
records, and rebuild the claim cell as the kept texts joined with `" | "`. -/
def processRow (i : Nat) (row : List PyVal) : List PyVal × List (List PyVal) :=
  let key := row.getD 0 .vNone
  let cell := row.getD i .vNone
  let acc := (partsOfCell cell).foldl (rowStep key)
    (([], []) : List (List Char) × List (List PyVal))
  (row.set i (.vStr (pyJoin " | ".data acc.1)), acc.2)

/-- Error raised when a required column is missing (`SchemaError` in the
spec's taxonomy; the Python code surfaces it as the `ValueError` of
`list.index`). -/
inductive SchemaErr where
  | schemaError
deriving DecidableEq, Repr

/-- Header of the rejected-claims table (`rejected_rows` initial value). -/
def rejHeaderRow : List PyVal :=
  [.vStr "Key".data, .vStr "Claim".data, .vStr "Comments".data]

/-- Column name holding the claim fragments. -/
def claimColName : List Char := "Independent Claims".data

/-- Embeds `process_details_sheet` from `src/app.py` on the in-memory table
(header row first, then data rows): locate the `Independent Claims` column
(failure aborts the whole transformation), transform every data row with
`processRow`, and return the cleaned table plus the rejected table. -/
def process_details_sheet (table : List (List PyVal)) :
    Except SchemaErr (List (List PyVal) × List (List PyVal)) :=
  let headers := table.headD []
  match headers.findIdx? (fun c => decide (c = .vStr claimColName)) with
  | none => .error .schemaError
  | some i =>
    let processed := (table.tail).map (processRow i)
    .ok (headers :: processed.map (fun p => p.1),
         rejHeaderRow :: processed.flatMap (fun p => p.2))

/-! ### Info-sheet builder (`process_info_sheet`) -/

/-- Pandas `.astype(str)` on one cell: a null cell (NaN after `read_excel`)
stringifies to `"nan"`, a string stays itself, an integer prints in
decimal. -/
def astype_str (v : PyVal) : PyVal :=
  match v with
  | .vNone => .vStr "nan".data
  | .vStr s => .vStr s
  | .vInt n => .vStr (toString n).data

/-- Pandas `.fillna('')` on one cell: only a (still-)null cell is replaced
by the empty string. -/
def fillna_empty (v : PyVal) : PyVal :=
  match v with
  | .vNone => .vStr []
  | w => w

/-- The `INPADOC Family Members` value of the base info row
(`df_seed['extended family members'].astype(str).fillna('')`), before the
earliest-publication augmentation. -/
def infoFamilyMembers (extFamily : PyVal) : List Char :=
  match fillna_empty (astype_str extFamily) with
  | .vStr s => s
  | _ => []

/-- First maximal run of decimal digits of a string: the regex group of
`str.extract(r'(\d+)', expand=False)`; `none` when no digit occurs. -/
def firstDigitRun : List Char → Option (List Char)
  | [] => none
  | c :: rest =>
    if c.isDigit then some (c :: rest.takeWhile Char.isDigit)
    else firstDigitRun rest

/-- Numeric value of a digit string. -/
def digitsVal (run : List Char) : Nat :=
  run.foldl (fun n c => n * 10 + (c.toNat - 48)) 0

/-- Error raised by pandas' `astype('Int64')` when an extracted digit string
does not fit the signed 64-bit integer range (OverflowError / unsafe
cast). -/
inductive CastError where
  | overflow
deriving DecidableEq, Repr

/-- Largest value of the signed 64-bit `Int64` dtype. -/
def int64Max : Nat := 9223372036854775807

/-- Pandas `.astype('Int64')` on one extracted cell: a missing match (NaN)
becomes `<NA>`; a digit string whose value fits the signed 64-bit range
becomes that value; a longer digit run cannot be represented and the
conversion raises. -/
def astype_int64 (run : Option (List Char)) : Except CastError (Option Nat) :=
  match run with
  | none => .ok none
  | some ds =>
    if digitsVal ds ≤ int64Max then .ok (some (digitsVal ds))
    else .error .overflow

/-- The `Claim Number` column computation of `process_info_sheet`:
`astype(str).str.extract(r'(\d+)', expand=False).astype('Int64')`, with
`some none` embedding the nullable `Int64` `<NA>` and `.error` the raising
conversion of an out-of-range digit run. -/
def claimNumberOf (raw : PyVal) : Except CastError (Option Nat) :=
  astype_int64 (firstDigitRun (pyStr (astype_str raw)))

/-- One seed row of the metadata table (a row with `Seed?` true), carrying
the four fields `process_info_sheet` reads. -/
structure SeedRow where
  seedPatent : PyVal
  formattedApp : PyVal
  extFamily : PyVal
  claimNum : PyVal
deriving DecidableEq, Repr

/-- One base info row as built by the `pd.DataFrame({...})` constructor plus
the `Claim Number` cleaning step of `process_info_sheet` (before the family
merge and the earliest-publication augmentation). -/
structure InfoRow where
  pubNumber : PyVal
  appNumber : PyVal
  famMembers : List Char
  claimNumber : Option Nat
deriving DecidableEq, Repr

/-- Base info row construction from a seed row (`process_info_sheet`,
pre-merge): the `Claim Number` cleaning step can raise on an out-of-range
digit run, failing the whole build. -/
def buildInfoRow (s : SeedRow) : Except CastError InfoRow :=
  (claimNumberOf s.claimNum).map (fun n =>
    { pubNumber := s.seedPatent
      appNumber := s.formattedApp
      famMembers := infoFamilyMembers s.extFamily
      claimNumber := n })

/-- One row of the family-published table, with `Publication Date` already
put through `pd.to_datetime(..., errors='coerce')`: `some d` is a parsed
date ordinal, `none` is `NaT`. -/
structure FamRow where
  pub : List Char
  famId : PyVal
  app : List Char
  date : Option Nat
deriving DecidableEq, Repr

/-- Python string `<` (lexicographic on code points). -/
def strLt : List Char → List Char → Bool
  | [], [] => false
  | [], _ :: _ => true
  | _ :: _, [] => false
  | a :: as, b :: bs => if a = b then strLt as bs else decide (a < b)

/-- Date order of the sort: ascending, with `NaT` sorting last
(`na_position='last'`). -/
def dateLe : Option Nat → Option Nat → Bool
  | _, none => true
  | none, some _ => false
  | some a, some b => decide (a ≤ b)

/-- Row order of `sort_values(['Application Number', 'Publication Date'],
ascending=[True, True])`. -/
def famLe (r₁ r₂ : FamRow) : Prop :=
  (strLt r₁.app r₂.app || (decide (r₁.app = r₂.app) && dateLe r₁.date r₂.date)) = true

instance : DecidableRel famLe := fun r₁ r₂ => by
  unfold famLe; infer_instance

/-- Pandas `drop_duplicates(subset='Application Number', keep='first')`:
keep the first row for each application number, preserving order (later
rows whose application number already appeared are removed). -/
def dropDupApp : List FamRow → List FamRow
  | [] => []
  | r :: rs => r :: (dropDupApp rs).filter (fun r₂ => decide (r₂.app ≠ r.app))

/-- The sorted family table (`df_sorted`); pandas' quicksort is modelled by
a stable sort, which agrees with it up to the order of rows equal under the
sort key. -/
def sortedFam (rows : List FamRow) : List FamRow :=
  List.insertionSort famLe rows

/-- The earliest-publication lookup
(`dict(zip(df_earliest_pub['Application Number'],
df_earliest_pub['Publication Number']))`): the keys of `df_earliest_pub`
are unique after `drop_duplicates`, so dict lookup is first-match lookup. -/
def earliestPubMap (rows : List FamRow) (a : List Char) : Option (List Char) :=
  ((dropDupApp (sortedFam rows)).find? (fun r => decide (r.app = a))).map
    (fun r => r.pub)

/-- The set `existing_set` of `concat_published`:
`set(existing.split('|')) if existing else set()`, modelled as the
deduplicated split. -/
def existingSet (existing : List Char) : List (List Char) :=
  if existing.isEmpty then [] else (splitOnChar '|' existing).dedup

/-- Python string `<=`, used to model `sorted(...)` on the member set. -/
def strLeP (a b : List Char) : Prop := (strLt a b || decide (a = b)) = true

instance : DecidableRel strLeP := fun a b => by
  unfold strLeP; infer_instance

/-- The final member list of `concat_published`:
`sorted(existing_set)` after the conditional `add` of the earliest
publication number. -/
def finalMembersList (existing p : List Char) : List (List Char) :=
  let s := existingSet existing
  List.insertionSort strLeP (if p ∈ s then s else s ++ [p])

/-- Embeds `concat_published` from `src/app.py` for one info row: look up
the earliest publication for the row's application number; a missing or
falsy (empty-string) result leaves the existing value unchanged, otherwise
the value is rebuilt as the sorted, deduplicated, pipe-joined member set
with the earliest publication added. -/
def concat_published (existing : List Char) (app : List Char)
    (rows : List FamRow) : List Char :=
  match earliestPubMap rows app with
  | none => existing
  | some p =>
    if p.isEmpty then existing
    else pyJoin "|".data (finalMembersList existing p)

/-- A family row for application `a` whose date is parseable and minimal
among the parseable dates of that application: the "earliest-dated
publication" of the claims. -/
def IsEarliestFor (rows : List FamRow) (a : List Char) (r : FamRow) : Prop :=
  r ∈ rows ∧ r.app = a ∧
    ∃ d, r.date = some d ∧
      ∀ r' ∈ rows, r'.app = a → ∀ d', r'.date = some d' → d ≤ d'

instance (rows : List FamRow) (a : List Char) (r : FamRow) :
    Decidable (IsEarliestFor rows a r) :=
  decidable_of_iff
    (r ∈ rows ∧ r.app = a ∧ r.date.isSome = true ∧
      ∀ r' ∈ rows, r'.app = a → dateLe r.date r'.date = true)
    (by
      constructor
      · rintro ⟨h₁, h₂, h₃, h₄⟩
        refine ⟨h₁, h₂, ?_⟩
        obtain ⟨d, hd⟩ := Option.isSome_iff_exists.mp h₃
        refine ⟨d, hd, fun r' hr' ha d' hd' => ?_⟩
        have := h₄ r' hr' ha
        rw [hd, hd'] at this
        simpa [dateLe] using this
      · rintro ⟨h₁, h₂, d, hd, h₄⟩
        refine ⟨h₁, h₂, by simp [hd], fun r' hr' ha => ?_⟩
        rw [hd]
        cases hd' : r'.date with
        | none => simp [dateLe]
        | some d' => simpa [dateLe] using h₄ r' hr' ha d' hd')

/-! ### Spec-side characterizations -/

/-- All six rejecting substring checks of `clean_claim_text` are false on a
normalized text. -/
def RejFree (t : List Char) : Prop :=
  hasSub "(canceled)".data (lowerChars t) = false ∧
  crmPats.any (fun p => hasSub p (lowerChars t)) = false ∧
  hasSub "delete".data (lowerChars t) = false ∧
  hasSub "paragraph".data (lowerChars t) = false ∧
  hasSub "article".data (lowerChars t) = false ∧
  hasSub "clause".data (lowerChars t) = false

instance (t : List Char) : Decidable (RejFree t) := by
  unfold RejFree; infer_instance

/-- A normalized text matching none of the substring/regex tag conditions of
`clean_claim_text`. -/
def NoTagConds (t : List Char) : Prop :=
  RejFree t ∧ probDepRegex t = false

instance (t : List Char) : Decidable (NoTagConds t) := by
  unfold NoTagConds; infer_instance

/-- Declarative form of the kept side of the fragment partition: the cleaned
texts of the non-rejected fragments, in original order. -/
def keptFragments (parts : List (List Char)) : List (List Char) :=
  (parts.filter (fun p => !isRejected (clean_claim_text (.vStr p)).2)).map
    (fun p => (clean_claim_text (.vStr p)).1)

/-- Declarative form of the rejected side of the fragment partition: one
`[key, cleaned_text, joined_comments]` record per rejected fragment, in
original order. -/
def rejectedRecords (key : PyVal) (parts : List (List Char)) :
    List (List PyVal) :=
  (parts.filter (fun p => isRejected (clean_claim_text (.vStr p)).2)).map
    (fun p => [key, .vStr (clean_claim_text (.vStr p)).1,
               .vStr (joinTags (clean_claim_text (.vStr p)).2)])

/-- The fragment loop accumulates exactly the kept/rejected partition. -/
lemma foldl_rowStep (key : PyVal) (parts : List (List Char))
    (k : List (List Char)) (r : List (List PyVal)) :
    parts.foldl (rowStep key) (k, r) =
      (k ++ keptFragments parts, r ++ rejectedRecords key parts) := by
  induction parts generalizing k r with
  | nil => simp [keptFragments, rejectedRecords]
  | cons p ps ih =>
    simp only [List.foldl_cons]
    by_cases hrej : isRejected (clean_claim_text (.vStr p)).2 = true
    · rw [show rowStep key (k, r) p =
        (k, r ++ [[key, .vStr (clean_claim_text (.vStr p)).1,
                  .vStr (joinTags (clean_claim_text (.vStr p)).2)]]) by
          simp [rowStep, hrej]]
      rw [ih]
      simp [keptFragments, rejectedRecords, List.filter_cons, hrej]
    · rw [show rowStep key (k, r) p = (k ++ [(clean_claim_text (.vStr p)).1], r) by
        simp [rowStep, hrej]]
      rw [ih]
      simp only [Bool.not_eq_true] at hrej
      simp [keptFragments, rejectedRecords, List.filter_cons, hrej]

/-- Closed form of `processRow`: the transformed row with the rebuilt claim
cell, paired with the rejected records of the row. -/
lemma processRow_eq (i : Nat) (row : List PyVal) :
    processRow i row =
      (row.set i (.vStr (pyJoin " | ".data
         (keptFragments (partsOfCell (row.getD i .vNone))))),
       rejectedRecords (row.getD 0 .vNone) (partsOfCell (row.getD i .vNone))) := by
  simp only [processRow]
  rw [foldl_rowStep]
  simp

/-! ### C6, C1, C3, C7 -/

/-- C6: every input that is the empty string, `None`, or a non-string value
makes `clean_claim_text` return exactly `("", [])`. -/
theorem clean_claim_text_degenerate (v : PyVal)
    (h : v = .vStr [] ∨ v = .vNone ∨ ∀ s, v ≠ .vStr s) :
    clean_claim_text v = ([], []) := by
  rcases h with h | h | h
  · subst h; rfl
  · subst h; rfl
  · cases v with
    | vStr s => exact absurd rfl (h s)
    | vNone => rfl
    | vInt n => rfl

/-- Witness for C6 at the `None` input. -/
theorem clean_claim_text_degenerate_witness :
    clean_claim_text .vNone = ([], []) :=
  clean_claim_text_degenerate .vNone (Or.inr (Or.inl rfl))

/-- C1 (code evaluation at the failing input): a seed row whose
`extended family members` field is null gets the string `"nan"` as its
pre-augmentation INPADOC Family Members value, not the empty string —
`astype(str)` stringifies NaN before `fillna('')` can replace it, so the
`fillna` is a no-op. -/
theorem infoFamilyMembers_null_eval :
    buildInfoRow ⟨.vStr "US123".data, .vStr "APP1".data, .vNone,
        .vStr "Claim 3".data⟩ =
      .ok ⟨.vStr "US123".data, .vStr "APP1".data, "nan".data, some 3⟩ ∧
      "nan".data ≠ ([] : List Char) := by
  exact ⟨rfl, by decide⟩

/-- C3: when the header row has no `Independent Claims` cell, the details
transformation aborts with the schema error and produces neither a cleaned
nor a rejected table. -/
theorem process_details_sheet_missing_column (table : List (List PyVal))
    (h : ∀ c ∈ table.headD [], c ≠ PyVal.vStr claimColName) :
    process_details_sheet table = .error .schemaError := by
  have hidx : (table.headD []).findIdx?
      (fun c => decide (c = .vStr claimColName)) = none := by
    rw [List.findIdx?_eq_none_iff]
    intro c hc
    simpa using h c hc
  simp only [process_details_sheet]
  rw [hidx]

/-- Witness for C3 on a one-column header lacking the claim column. -/
theorem process_details_sheet_missing_column_witness :
    process_details_sheet [[PyVal.vStr "Key".data]] = .error .schemaError :=
  process_details_sheet_missing_column [[PyVal.vStr "Key".data]] (by decide)

/-- The first maximal digit run of a string, characterized: either the
string has no digit and the extraction is `none`, or the string splits as a
digit-free part, a nonempty maximal digit run, and a remainder not starting
with a digit, and the extraction returns that run. -/
lemma firstDigitRun_spec (s : List Char) :
    (firstDigitRun s = none ∧ ∀ c ∈ s, c.isDigit = false) ∨
    (∃ a run b, s = a ++ run ++ b ∧ run ≠ [] ∧ (∀ c ∈ run, c.isDigit = true) ∧
      (∀ c ∈ a, c.isDigit = false) ∧
      (∀ c, b.head? = some c → c.isDigit = false) ∧
      firstDigitRun s = some run) := by
  induction s with
  | nil => exact Or.inl ⟨rfl, by simp⟩
  | cons c rest ih =>
    by_cases hc : c.isDigit = true
    · refine Or.inr ⟨[], c :: rest.takeWhile Char.isDigit,
        rest.dropWhile Char.isDigit, ?_, by simp, ?_, by simp, ?_, ?_⟩
      · simp [List.takeWhile_append_dropWhile]
      · intro x hx
        rcases List.mem_cons.mp hx with hx | hx
        · subst hx; exact hc
        · exact List.mem_takeWhile_imp hx
      · intro x hx
        have := List.head?_dropWhile_not Char.isDigit rest
        rw [hx] at this
        exact this
      · simp [firstDigitRun, hc]
    · rcases ih with ⟨hnone, hnod⟩ | ⟨a, run, b, hsplit, hne, hrun, ha, hb, hfind⟩
      · refine Or.inl ⟨?_, ?_⟩
        · simp [firstDigitRun, hc, hnone]
        · intro x hx
          rcases List.mem_cons.mp hx with hx | hx
          · subst hx; simpa using hc
          · exact hnod x hx
      · refine Or.inr ⟨c :: a, run, b, by simp [hsplit], hne, hrun, ?_, hb, ?_⟩
        · intro x hx
          rcases List.mem_cons.mp hx with hx | hx
          · subst hx; simpa using hc
          · exact ha x hx
        · simp [firstDigitRun, hc, hfind]

/-- C7 counterexample: a `Claim number` field whose first digit run exceeds
the signed 64-bit range (here nineteen nines, about 10^19 > 2^63 - 1) is
extracted as a digit string that `astype('Int64')` cannot represent, so the
build raises instead of producing a row — refuting "no input value for this
field causes the build to fail". -/
theorem buildInfoRow_overflow :
    firstDigitRun (pyStr (astype_str (.vStr "9999999999999999999".data))) =
      some "9999999999999999999".data ∧
    int64Max < digitsVal "9999999999999999999".data ∧
    buildInfoRow ⟨.vStr "US123".data, .vStr "APP1".data, .vStr "US999".data,
      .vStr "9999999999999999999".data⟩ = .error .overflow := by
  refine ⟨rfl, by decide, rfl⟩

/-- C7 (amended): for every seed row, either the string form of the raw
`Claim number` field has no digit and the info row's Claim Number is null,
or it has a first maximal digit run: when that run's integer value fits the
signed 64-bit range the Claim Number is exactly that value, and when it
does not the `astype('Int64')` conversion raises and the build fails. -/
theorem buildInfoRow_claimNumber_spec (s : SeedRow) :
    (∃ r, buildInfoRow s = .ok r ∧ r.claimNumber = none ∧
      ∀ c ∈ pyStr (astype_str s.claimNum), c.isDigit = false) ∨
    (∃ a run b, pyStr (astype_str s.claimNum) = a ++ run ++ b ∧ run ≠ [] ∧
      (∀ c ∈ run, c.isDigit = true) ∧ (∀ c ∈ a, c.isDigit = false) ∧
      (∀ c, b.head? = some c → c.isDigit = false) ∧
      ((digitsVal run ≤ int64Max ∧
        ∃ r, buildInfoRow s = .ok r ∧ r.claimNumber = some (digitsVal run)) ∨
       (int64Max < digitsVal run ∧ buildInfoRow s = .error .overflow))) := by
  rcases firstDigitRun_spec (pyStr (astype_str s.claimNum)) with
    ⟨hnone, hnod⟩ | ⟨a, run, b, hsplit, hne, hrun, ha, hb, hfind⟩
  · refine Or.inl ⟨⟨s.seedPatent, s.formattedApp,
      infoFamilyMembers s.extFamily, none⟩, ?_, rfl, hnod⟩
    simp [buildInfoRow, claimNumberOf, astype_int64, hnone, Except.map]
  · refine Or.inr ⟨a, run, b, hsplit, hne, hrun, ha, hb, ?_⟩
    by_cases hle : digitsVal run ≤ int64Max
    · refine Or.inl ⟨hle, ⟨s.seedPatent, s.formattedApp,
        infoFamilyMembers s.extFamily, some (digitsVal run)⟩, ?_, rfl⟩
      simp [buildInfoRow, claimNumberOf, astype_int64, hfind, hle, Except.map]
    · refine Or.inr ⟨Nat.lt_of_not_le hle, ?_⟩
      simp [buildInfoRow, claimNumberOf, astype_int64, hfind, hle, Except.map]

/-! ### Reject decision of the classifier -/

/-- Membership in both branches of an `if` gives membership in the `if`. -/
lemma mem_ite_of_both {α : Type} {P : Prop} [Decidable P] {a : α}
    {l₁ l₂ : List α} (h₁ : a ∈ l₁) (h₂ : a ∈ l₂) :
    a ∈ (if P then l₁ else l₂) := by
  split <;> assumption

/-- A comment list containing a rejecting tag is rejected. -/
lemma isRejected_of_mem (cs : List Tag) (x : Tag) (hx : x ∈ rejectTagList)
    (h : x ∈ cs) : isRejected cs = true := by
  unfold isRejected
  rw [List.any_eq_true]
  exact ⟨x, hx, by simpa using h⟩

/-- A non-rejected classification has all six rejecting substring checks
false on its normalized text. -/
lemma rejFree_of_not_isRejected (t : List Char)
    (h : isRejected (mkComments t) = false) : RejFree t := by
  refine ⟨?_, ?_, ?_, ?_, ?_, ?_⟩
  · by_contra hb
    rw [Bool.not_eq_false] at hb
    have hmem : Tag.cancel ∈ mkComments t := by
      simp only [mkComments, hb, eq_self_iff_true, if_true]
      exact mem_ite_of_both (by simp) (by simp)
    rw [isRejected_of_mem _ _ (by decide) hmem] at h
    exact Bool.noConfusion h
  · by_contra hb
    rw [Bool.not_eq_false] at hb
    have hmem : Tag.CRM ∈ mkComments t := by
      simp only [mkComments, hb, eq_self_iff_true, if_true]
      exact mem_ite_of_both (by simp) (by simp)
    rw [isRejected_of_mem _ _ (by decide) hmem] at h
    exact Bool.noConfusion h
  · by_contra hb
    rw [Bool.not_eq_false] at hb
    have hmem : Tag.delete ∈ mkComments t := by
      simp only [mkComments, hb, eq_self_iff_true, if_true]
      exact mem_ite_of_both (by simp) (by simp)
    rw [isRejected_of_mem _ _ (by decide) hmem] at h
    exact Bool.noConfusion h
  · by_contra hb
    rw [Bool.not_eq_false] at hb
    have hmem : Tag.paragraph ∈ mkComments t := by
      simp only [mkComments, hb, eq_self_iff_true, if_true]
      exact mem_ite_of_both (by simp) (by simp)
    rw [isRejected_of_mem _ _ (by decide) hmem] at h
    exact Bool.noConfusion h
  · by_contra hb
    rw [Bool.not_eq_false] at hb
    have hmem : Tag.article ∈ mkComments t := by
      simp only [mkComments, hb, eq_self_iff_true, if_true]
      exact mem_ite_of_both (by simp) (by simp)
    rw [isRejected_of_mem _ _ (by decide) hmem] at h
    exact Bool.noConfusion h
  · by_contra hb
    rw [Bool.not_eq_false] at hb
    have hmem : Tag.clause ∈ mkComments t := by
      simp only [mkComments, hb, eq_self_iff_true, if_true]
      exact mem_ite_of_both (by simp) (by simp)
    rw [isRejected_of_mem _ _ (by decide) hmem] at h
    exact Bool.noConfusion h

/-- A normalized text with all six rejecting checks false classifies as not
rejected, whatever the dependent-claim tag does. -/
lemma not_isRejected_of_rejFree (t : List Char) (h : RejFree t) :
    isRejected (mkComments t) = false := by
  obtain ⟨h1, h2, h3, h4, h5, h6⟩ := h
  simp only [mkComments, h1, h2, h3, h4, h5, h6, Bool.false_eq_true, if_false,
    List.nil_append]
  split_ifs <;> decide

/-- A text matching none of the tag conditions and shorter than 200
characters classifies with exactly the fallback tag. -/
lemma mkComments_of_noTagConds (t : List Char) (h : NoTagConds t)
    (hlen : t.length < 200) : mkComments t = [Tag.probableDependent] := by
  obtain ⟨⟨h1, h2, h3, h4, h5, h6⟩, h7⟩ := h
  simp [mkComments, h1, h2, h3, h4, h5, h6, h7, hlen]

/-! ### C4 -/

/-- C4 counterexample: the empty-string fragment has normalized text of
length under 200 matching no tag condition, yet its tag list does not
contain `probable dependent` — the falsy-input guard returns before the
fallback rule can fire. -/
theorem clean_claim_text_empty_not_probable_dependent :
    (clean_claim_text (.vStr [])).1.length < 200 ∧
    NoTagConds (clean_claim_text (.vStr [])).1 ∧
    Tag.probableDependent ∉ (clean_claim_text (.vStr [])).2 := by
  decide

/-- C4 (amended): every NON-EMPTY string fragment whose normalized text has
length under 200 and matches none of the substring/regex tag conditions is
tagged `probable dependent` and is not rejected by the details
transformer. -/
theorem clean_claim_text_short_untagged (s : List Char) (hne : s ≠ [])
    (hlen : (clean_claim_text (.vStr s)).1.length < 200)
    (hcond : NoTagConds (clean_claim_text (.vStr s)).1) :
    Tag.probableDependent ∈ (clean_claim_text (.vStr s)).2 ∧
      isRejected (clean_claim_text (.vStr s)).2 = false := by
  have hemp : s.isEmpty = false := by
    cases s with
    | nil => exact absurd rfl hne
    | cons c cs => rfl
  simp only [clean_claim_text, hemp, Bool.false_eq_true, if_false] at hlen hcond ⊢
  constructor
  · rw [mkComments_of_noTagConds _ hcond hlen]
    exact List.mem_singleton.mpr rfl
  · exact not_isRejected_of_rejFree _ hcond.1

/-- Witness for C4 (amended) at the fragment `"hello"`. -/
theorem clean_claim_text_short_untagged_witness :
    Tag.probableDependent ∈ (clean_claim_text (.vStr "hello".data)).2 ∧
      isRejected (clean_claim_text (.vStr "hello".data)).2 = false :=
  clean_claim_text_short_untagged "hello".data (by decide) (by decide) (by decide)

/-! ### Lemmas about `splitOnChar`, `pyJoin`, and `pyStrip` -/

/-- `str.split` never yields an empty fragment list. -/
lemma splitOnChar_ne_nil (sep : Char) (s : List Char) :
    splitOnChar sep s ≠ [] := by
  cases s with
  | nil => simp [splitOnChar]
  | cons c rest =>
    simp only [splitOnChar]
    split
    · simp
    · split <;> simp

/-- Splitting a string free of the separator yields the string itself. -/
lemma splitOnChar_of_not_mem {sep : Char} {s : List Char} (h : sep ∉ s) :
    splitOnChar sep s = [s] := by
  induction s with
  | nil => rfl
  | cons c rest ih =>
    have hc : c ≠ sep := fun hc => h (hc ▸ List.mem_cons_self c rest)
    have hr : sep ∉ rest := fun hr => h (List.mem_cons_of_mem c hr)
    simp only [splitOnChar, if_neg hc, ih hr]

/-- Splitting a string that starts with a separator-free block followed by a
separator peels the block off. -/
lemma splitOnChar_append_cons {sep : Char} {a : List Char} (h : sep ∉ a)
    (t : List Char) :
    splitOnChar sep (a ++ sep :: t) = a :: splitOnChar sep t := by
  induction a with
  | nil => simp [splitOnChar]
  | cons c cs ih =>
    have hc : c ≠ sep := fun hc => h (hc ▸ List.mem_cons_self c cs)
    have hcs : sep ∉ cs := fun hcs => h (List.mem_cons_of_mem c hcs)
    rw [List.cons_append]
    simp only [splitOnChar, if_neg hc, ih hcs]

/-- Fragments produced by `str.split` do not contain the separator. -/
lemma notMem_of_mem_splitOnChar {sep : Char} :
    ∀ {s p : List Char}, p ∈ splitOnChar sep s → sep ∉ p := by
  intro s
  induction s with
  | nil =>
    intro p hp
    simp only [splitOnChar, List.mem_singleton] at hp
    simp [hp]
  | cons c rest ih =>
    intro p hp
    by_cases hc : c = sep
    · rw [show splitOnChar sep (c :: rest) = [] :: splitOnChar sep rest by
        simp [splitOnChar, hc]] at hp
      rcases List.mem_cons.mp hp with hp | hp
      · simp [hp]
      · exact ih hp
    · obtain ⟨s₀, ss, hs⟩ :=
        List.exists_cons_of_ne_nil (splitOnChar_ne_nil sep rest)
      rw [show splitOnChar sep (c :: rest) = (c :: s₀) :: ss by
        simp only [splitOnChar, if_neg hc, hs]] at hp
      rcases List.mem_cons.mp hp with hp | hp
      · subst hp
        intro hmem
        rcases List.mem_cons.mp hmem with hmem | hmem
        · exact hc hmem.symm
        · exact ih (by rw [hs]; exact List.mem_cons_self _ _) hmem
      · exact ih (by rw [hs]; exact List.mem_cons_of_mem _ hp)

/-- Joining separator-free fragments with the bare separator and splitting
again recovers the fragments. -/
lemma splitOnChar_pyJoin {sep : Char} :
    ∀ (l : List (List Char)), l ≠ [] → (∀ k ∈ l, sep ∉ k) →
      splitOnChar sep (pyJoin [sep] l) = l := by
  intro l
  induction l with
  | nil => intro h; cases h rfl
  | cons k ks ih =>
    intro _ hl
    cases ks with
    | nil => simpa [pyJoin] using splitOnChar_of_not_mem (hl k (by simp))
    | cons k' ks' =>
      have hje : pyJoin [sep] (k :: k' :: ks') =
          k ++ sep :: pyJoin [sep] (k' :: ks') := by
        simp [pyJoin]
      rw [hje, splitOnChar_append_cons (hl k (by simp)),
        ih (by simp) (fun x hx => hl x (List.mem_cons_of_mem _ hx))]

/-- Every fragment of the re-split of a `" | "`-join of pipe-free fragments
is one of the joined fragments padded by whitespace. -/
lemma mem_splitOnChar_pyJoin_sp :
    ∀ (l : List (List Char)), l ≠ [] → (∀ k ∈ l, ('|' : Char) ∉ k) →
      ∀ p ∈ splitOnChar '|' (pyJoin " | ".data l),
        ∃ k ∈ l, ∃ a b, p = a ++ k ++ b ∧
          (∀ c ∈ a, isPySpace c = true) ∧ (∀ c ∈ b, isPySpace c = true) := by
  intro l
  induction l with
  | nil => intro h; cases h rfl
  | cons k ks ih =>
    intro _ hl p hp
    cases ks with
    | nil =>
      rw [show pyJoin " | ".data [k] = k from rfl,
        splitOnChar_of_not_mem (hl k (by simp)), List.mem_singleton] at hp
      exact ⟨k, by simp, [], [], by simp [hp], by simp, by simp⟩
    | cons k' ks' =>
      have hje : pyJoin " | ".data (k :: k' :: ks') =
          (k ++ [' ']) ++ '|' :: (' ' :: pyJoin " | ".data (k' :: ks')) := by
        simp [pyJoin]
      have hk : ('|' : Char) ∉ k ++ [' '] := by
        intro hmem
        rcases List.mem_append.mp hmem with hmem | hmem
        · exact hl k (by simp) hmem
        · simp at hmem
      rw [hje, splitOnChar_append_cons hk] at hp
      rcases List.mem_cons.mp hp with hp | hp
      · exact ⟨k, by simp, [], [' '], by simp [hp], by simp,
          by intro c hc; simp at hc; simp [hc, isPySpace]⟩
      · obtain ⟨s₀, ss, hsplit⟩ := List.exists_cons_of_ne_nil
          (splitOnChar_ne_nil '|' (pyJoin " | ".data (k' :: ks')))
        have hcons : splitOnChar '|' (' ' :: pyJoin " | ".data (k' :: ks')) =
            (' ' :: s₀) :: ss := by
          simp only [splitOnChar, if_neg (by decide : ¬(' ' : Char) = '|'), hsplit]
        rw [hcons] at hp
        have hltail : ∀ x ∈ k' :: ks', ('|' : Char) ∉ x :=
          fun x hx => hl x (List.mem_cons_of_mem _ hx)
        rcases List.mem_cons.mp hp with hp | hp
        · have hs₀ : s₀ ∈ splitOnChar '|' (pyJoin " | ".data (k' :: ks')) := by
            rw [hsplit]; exact List.mem_cons_self _ _
          obtain ⟨k₀, hk₀, a, b, hab, hsa, hsb⟩ :=
            ih (by simp) hltail s₀ hs₀
          refine ⟨k₀, List.mem_cons_of_mem _ hk₀, ' ' :: a, b,
            by simp [hp, hab], ?_, hsb⟩
          intro c hc
          rcases List.mem_cons.mp hc with hc | hc
          · simp [hc, isPySpace]
          · exact hsa c hc
        · have hmem : p ∈ splitOnChar '|' (pyJoin " | ".data (k' :: ks')) := by
            rw [hsplit]; exact List.mem_cons_of_mem _ hp
          obtain ⟨k₀, hk₀, a, b, hab, hsa, hsb⟩ := ih (by simp) hltail p hmem
          exact ⟨k₀, List.mem_cons_of_mem _ hk₀, a, b, hab, hsa, hsb⟩

/-- Dropping leading whitespace ignores an all-whitespace block in front. -/
lemma ltrim_append_of_space {a : List Char} (h : ∀ c ∈ a, isPySpace c = true)
    (x : List Char) : ltrimChars (a ++ x) = ltrimChars x := by
  induction a with
  | nil => rfl
  | cons c cs ih =>
    rw [List.cons_append]
    simp only [ltrimChars] at ih ⊢
    rw [List.dropWhile_cons_of_pos (h c (by simp))]
    exact ih (fun d hd => h d (List.mem_cons_of_mem _ hd))

/-- An all-whitespace string trims to nothing on the left. -/
lemma ltrim_eq_nil_of_space {a : List Char} (h : ∀ c ∈ a, isPySpace c = true) :
    ltrimChars a = [] := by
  simp only [ltrimChars, List.dropWhile_eq_nil_iff]
  exact h

/-- Dropping trailing whitespace ignores an all-whitespace block behind. -/
lemma rtrim_append_of_space {b : List Char} (h : ∀ c ∈ b, isPySpace c = true)
    (x : List Char) : rtrimChars (x ++ b) = rtrimChars x := by
  have h2 : ∀ c ∈ b.reverse, isPySpace c = true :=
    fun c hc => h c (List.mem_reverse.mp hc)
  have := ltrim_append_of_space h2 x.reverse
  simp only [ltrimChars] at this
  simp only [rtrimChars, List.reverse_append, this]

/-- Python `strip` ignores all-whitespace padding on both sides. -/
lemma pyStrip_pad {a b : List Char} (ha : ∀ c ∈ a, isPySpace c = true)
    (hb : ∀ c ∈ b, isPySpace c = true) (s : List Char) :
    pyStrip (a ++ s ++ b) = pyStrip s := by
  unfold pyStrip
  rw [show a ++ s ++ b = a ++ (s ++ b) from by simp,
    ltrim_append_of_space ha]
  simp only [ltrimChars, List.dropWhile_append]
  rcases hnil : List.dropWhile isPySpace s with _ | ⟨c, cs⟩
  · rw [show List.dropWhile isPySpace b = [] from ltrim_eq_nil_of_space hb]
    simp
  · simp only [List.isEmpty_cons, Bool.false_eq_true, if_false]
    exact rtrim_append_of_space hb _

/-- Python `strip` yields a contiguous substring of its input. -/
lemma pyStrip_substring (s : List Char) : pyStrip s <:+: s := by
  have h1 : ltrimChars s <:+ s := List.dropWhile_suffix _
  have h2 : rtrimChars (ltrimChars s) <+: ltrimChars s := by
    apply List.reverse_suffix.mp
    rw [rtrimChars, List.reverse_reverse]
    exact List.dropWhile_suffix _
  exact List.IsInfix.trans h2.isInfix h1.isInfix

/-- `remove_non_ascii` does nothing on an all-ASCII string. -/
lemma remove_non_ascii_of_ascii {t : List Char}
    (h : ∀ c ∈ t, c.toNat < 128) : remove_non_ascii t = t := by
  unfold remove_non_ascii
  rw [List.filter_eq_self]
  exact fun c hc => decide_eq_true (h c hc)

/-- Lowercasing preserves the contiguous-substring relation. -/
lemma lowerChars_substring {t k : List Char} (h : t <:+: k) :
    lowerChars t <:+: lowerChars k := by
  obtain ⟨a, b, rfl⟩ := h
  exact ⟨lowerChars a, lowerChars b, by simp [lowerChars]⟩

/-- The rejecting substring checks are monotone under contiguous
substrings: a text with no rejecting substring has none in any of its
contiguous substrings. -/
lemma rejFree_of_substring {t k : List Char} (hik : t <:+: k) (hk : RejFree k) :
    RejFree t := by
  obtain ⟨h1, h2, h3, h4, h5, h6⟩ := hk
  have hmono : ∀ pat : List Char, hasSub pat (lowerChars k) = false →
      hasSub pat (lowerChars t) = false := by
    intro pat hpk
    by_contra hx
    rw [Bool.not_eq_false] at hx
    have hti : pat <:+: lowerChars t := of_decide_eq_true hx
    have hki : pat <:+: lowerChars k := hti.trans (lowerChars_substring hik)
    rw [show hasSub pat (lowerChars k) = true from decide_eq_true hki] at hpk
    exact Bool.noConfusion hpk
  refine ⟨hmono _ h1, ?_, hmono _ h3, hmono _ h4, hmono _ h5, hmono _ h6⟩
  rw [List.any_eq_false] at h2 ⊢
  intro p hp hx
  have hti : p <:+: lowerChars t := of_decide_eq_true hx
  exact h2 p hp (decide_eq_true (hti.trans (lowerChars_substring hik)))

/-- Closed form of `clean_claim_text` on a non-empty string. -/
lemma clean_claim_text_of_ne {s : List Char} (h : s ≠ []) :
    clean_claim_text (.vStr s) =
      (remove_non_ascii (pyStrip s),
       mkComments (remove_non_ascii (pyStrip s))) := by
  have hemp : s.isEmpty = false := by
    cases s with
    | nil => exact absurd rfl h
    | cons c cs => rfl
  simp [clean_claim_text, hemp]

/-! ### C10 -/

/-- C10 counterexample: a whitespace-only fragment arising between pipes is
NOT classified `("", [])`: it receives the `probable dependent` fallback
tag. -/
theorem whitespace_fragment_not_untagged :
    splitOnChar '|' "a| |b".data = ["a".data, " ".data, "b".data] ∧
    clean_claim_text (.vStr " ".data) ≠ ([], []) := by
  decide

/-- C10 (amended): each empty or whitespace-only fragment normalizes to the
empty string with no tag (empty fragment) or exactly the
`probable dependent` tag (whitespace-only fragment), is never rejected, and
is kept as an empty entry, so a rebuilt claim cell can contain empty
segments between `" | "` separators. -/
theorem clean_claim_text_blank_fragment (s : List Char)
    (h : ∀ c ∈ s, isPySpace c = true) :
    (clean_claim_text (.vStr s)).1 = [] ∧
    (clean_claim_text (.vStr s)).2 =
      (if s = [] then [] else [Tag.probableDependent]) ∧
    isRejected (clean_claim_text (.vStr s)).2 = false ∧
    (processRow 1 [.vNone, .vStr ('a' :: '|' :: s ++ '|' :: 'b' :: [])]).1 =
      [.vNone, .vStr "a |  | b".data] := by
  have hstrip : pyStrip s = [] := by
    unfold pyStrip
    rw [ltrim_eq_nil_of_space h]
    rfl
  have hclean : clean_claim_text (.vStr s) =
      ([], if s = [] then [] else [Tag.probableDependent]) := by
    rcases eq_or_ne s [] with rfl | hne
    · simp [clean_claim_text]
    · rw [clean_claim_text_of_ne hne, hstrip, if_neg hne]
      constructor
  have hpipefree : ('|' : Char) ∉ s := by
    intro hmem
    have := h '|' hmem
    simp [isPySpace] at this
  refine ⟨by rw [hclean], by rw [hclean], ?_, ?_⟩
  · rw [hclean]
    split <;> decide
  · rw [processRow_eq]
    have hparts : partsOfCell ((([.vNone,
        .vStr ('a' :: '|' :: s ++ '|' :: 'b' :: [])] : List PyVal)).getD 1 .vNone) =
        ["a".data, s, "b".data] := by
      simp only [partsOfCell, List.getD_eq_getElem?_getD]
      rw [show (([.vNone, .vStr ('a' :: '|' :: s ++ '|' :: 'b' :: [])] :
        List PyVal))[1]?.getD .vNone = .vStr ('a' :: '|' :: s ++ '|' :: 'b' :: [])
        from rfl]
      rw [show pyTruthy (.vStr ('a' :: '|' :: s ++ '|' :: 'b' :: [])) = true
        from rfl, if_pos rfl]
      rw [show pyStr (.vStr ('a' :: '|' :: s ++ '|' :: 'b' :: [])) =
        'a' :: '|' :: s ++ '|' :: 'b' :: [] from rfl]
      rw [show ('a' :: '|' :: s ++ '|' :: 'b' :: []) =
        ['a'] ++ '|' :: (s ++ '|' :: ['b']) from by simp]
      rw [splitOnChar_append_cons (by decide),
        splitOnChar_append_cons hpipefree,
        splitOnChar_of_not_mem (by decide)]
    rw [hparts]
    have hkept : keptFragments ["a".data, s, "b".data] = ["a".data, [], "b".data] := by
      unfold keptFragments
      have hra : isRejected (clean_claim_text (.vStr "a".data)).2 = false := by decide
      have hrb : isRejected (clean_claim_text (.vStr "b".data)).2 = false := by decide
      have hrs : isRejected (clean_claim_text (.vStr s)).2 = false := by
        rw [hclean]; split <;> decide
      simp only [List.filter_cons, hra, hrb, hrs, Bool.not_false, if_pos trivial,
        List.filter_nil, List.map_cons, List.map_nil]
      rw [show (clean_claim_text (.vStr "a".data)).1 = "a".data from rfl,
        show (clean_claim_text (.vStr "b".data)).1 = "b".data from rfl,
        show (clean_claim_text (.vStr s)).1 = [] from by rw [hclean]]
    rw [hkept]
    rfl

/-- Witness for C10 (amended) at the single-space fragment. -/
theorem clean_claim_text_blank_fragment_witness :
    (clean_claim_text (.vStr [' '])).1 = [] ∧
    (clean_claim_text (.vStr [' '])).2 =
      (if ([' '] : List Char) = [] then [] else [Tag.probableDependent]) ∧
    isRejected (clean_claim_text (.vStr [' '])).2 = false ∧
    (processRow 1 [.vNone, .vStr ('a' :: '|' :: [' '] ++ '|' :: 'b' :: [])]).1 =
      [.vNone, .vStr "a |  | b".data] :=
  clean_claim_text_blank_fragment [' '] (by decide)

/-! ### C8 and C9 -/

/-- C8: for every data row, the fragments of the claim cell split on `|`
partition exactly into the kept entries (their normalized texts, rebuilt
into the claim cell in original order) and the rejected records (one per
rejected fragment); nothing is dropped and nothing appears twice. -/
theorem processRow_partitions (i : Nat) (row : List PyVal) :
    processRow i row =
      (row.set i (.vStr (pyJoin " | ".data
         (keptFragments (partsOfCell (row.getD i .vNone))))),
       rejectedRecords (row.getD 0 .vNone) (partsOfCell (row.getD i .vNone))) ∧
    (partsOfCell (row.getD i .vNone)).length =
      (keptFragments (partsOfCell (row.getD i .vNone))).length +
      (rejectedRecords (row.getD 0 .vNone)
        (partsOfCell (row.getD i .vNone))).length := by
  refine ⟨processRow_eq i row, ?_⟩
  unfold keptFragments rejectedRecords
  rw [List.length_map, List.length_map]
  rw [List.length_eq_length_filter_add
    (fun p => isRejected (clean_claim_text (.vStr p)).2)]
  omega

/-- C9: a successful details transformation keeps the header row, maps the
data rows in original order, and changes each data row only at the claim
column: every other column keeps its value and its position, and the row
keeps its length. -/
theorem process_details_sheet_frame (table cleaned rejected : List (List PyVal))
    (h : process_details_sheet table = .ok (cleaned, rejected)) :
    ∃ i, (table.headD []).findIdx?
        (fun c => decide (c = .vStr claimColName)) = some i ∧
      cleaned = table.headD [] ::
        (table.tail).map (fun row => (processRow i row).1) ∧
      ∀ row ∈ table.tail, ∀ j, j ≠ i →
        ((processRow i row).1)[j]? = row[j]? ∧
        ((processRow i row).1).length = row.length := by
  simp only [process_details_sheet] at h
  split at h
  · exact absurd h (by simp)
  next i hidx =>
    simp only [Except.ok.injEq, Prod.mk.injEq] at h
    refine ⟨i, hidx, ?_, ?_⟩
    · rw [← h.1, List.map_map]
      rfl
    · intro row _ j hj
      rw [processRow_eq]
      exact ⟨List.getElem?_set_ne (fun he => hj he.symm), by simp⟩

/-- Witness for C9 on a two-column table with one data row. -/
theorem process_details_sheet_frame_witness :
    ∃ i, (([[PyVal.vStr "Key".data, PyVal.vStr "Independent Claims".data],
          [PyVal.vStr "K1".data, PyVal.vStr "foo".data]] :
            List (List PyVal)).headD []).findIdx?
        (fun c => decide (c = .vStr claimColName)) = some i ∧
      ([[PyVal.vStr "Key".data, PyVal.vStr "Independent Claims".data],
        [PyVal.vStr "K1".data, PyVal.vStr "foo".data]] :
          List (List PyVal)).headD [] ::
        (([[PyVal.vStr "Key".data, PyVal.vStr "Independent Claims".data],
           [PyVal.vStr "K1".data, PyVal.vStr "foo".data]] :
             List (List PyVal)).tail).map (fun row => (processRow i row).1) =
      ([[PyVal.vStr "Key".data, PyVal.vStr "Independent Claims".data],
        [PyVal.vStr "K1".data, PyVal.vStr "foo".data]] :
          List (List PyVal)).headD [] ::
        (([[PyVal.vStr "Key".data, PyVal.vStr "Independent Claims".data],
           [PyVal.vStr "K1".data, PyVal.vStr "foo".data]] :
             List (List PyVal)).tail).map (fun row => (processRow i row).1) ∧
      ∀ row ∈ ([[PyVal.vStr "Key".data, PyVal.vStr "Independent Claims".data],
                [PyVal.vStr "K1".data, PyVal.vStr "foo".data]] :
                  List (List PyVal)).tail, ∀ j, j ≠ i →
        ((processRow i row).1)[j]? = row[j]? ∧
        ((processRow i row).1).length = row.length := by
  obtain ⟨i, h1, h2, h3⟩ := process_details_sheet_frame
    [[PyVal.vStr "Key".data, PyVal.vStr "Independent Claims".data],
     [PyVal.vStr "K1".data, PyVal.vStr "foo".data]] _ _ rfl
  exact ⟨i, h1, rfl, h3⟩

/-! ### C5: idempotence of the details transformation -/

/-- Invariant of every kept cleaned text: pipe-free, all-ASCII, and free of
every rejecting substring. -/
def KeptText (t : List Char) : Prop :=
  ('|' : Char) ∉ t ∧ (∀ c ∈ t, c.toNat < 128) ∧ RejFree t

/-- A fragment that the transformer keeps leaves a cleaned text satisfying
the kept-text invariant. -/
lemma keptText_of_clean {p : List Char} (hpipe : ('|' : Char) ∉ p)
    (hkeep : isRejected (clean_claim_text (.vStr p)).2 = false) :
    KeptText (clean_claim_text (.vStr p)).1 := by
  rcases eq_or_ne p [] with rfl | hne
  · exact ⟨by simp [clean_claim_text], by simp [clean_claim_text],
      by simp only [clean_claim_text]; decide⟩
  · rw [clean_claim_text_of_ne hne] at hkeep ⊢
    replace hkeep : isRejected (mkComments (remove_non_ascii (pyStrip p))) = false :=
      hkeep
    show KeptText (remove_non_ascii (pyStrip p))
    refine ⟨?_, ?_, ?_⟩
    · intro hmem
      have hsub : List.Sublist (remove_non_ascii (pyStrip p)) p :=
        (List.filter_sublist _).trans (pyStrip_substring p).sublist
      exact hpipe (hsub.subset hmem)
    · intro c hc
      simp only [remove_non_ascii] at hc
      exact of_decide_eq_true ((List.mem_filter.mp hc).2)
    · exact rejFree_of_not_isRejected _ hkeep

/-- A whitespace-padded copy of a kept text is again not rejected. -/
lemma clean_not_rejected_of_padded_kept {k p : List Char} (hk : KeptText k)
    {a b : List Char} (hpab : p = a ++ k ++ b)
    (ha : ∀ c ∈ a, isPySpace c = true) (hb : ∀ c ∈ b, isPySpace c = true) :
    isRejected (clean_claim_text (.vStr p)).2 = false := by
  rcases eq_or_ne p [] with rfl | hne
  · simp only [clean_claim_text]
    decide
  · rw [clean_claim_text_of_ne hne]
    obtain ⟨hpipe, hascii, hrf⟩ := hk
    have h1 : pyStrip p = pyStrip k := by
      rw [hpab]
      exact pyStrip_pad ha hb k
    have h2 : remove_non_ascii (pyStrip p) = pyStrip k := by
      rw [h1]
      exact remove_non_ascii_of_ascii
        (fun c hc => hascii c ((pyStrip_substring k).sublist.subset hc))
    simp only [h2]
    exact not_isRejected_of_rejFree _ (rejFree_of_substring (pyStrip_substring k) hrf)

/-- Every kept fragment of a processed claim cell satisfies the kept-text
invariant. -/
lemma keptText_all (i : Nat) (row : List PyVal) :
    ∀ k ∈ keptFragments (partsOfCell (row.getD i .vNone)), KeptText k := by
  intro k hk
  unfold keptFragments at hk
  rw [List.mem_map] at hk
  obtain ⟨p, hp, rfl⟩ := hk
  rw [List.mem_filter] at hp
  obtain ⟨hpmem, hpkeep⟩ := hp
  have hkeep : isRejected (clean_claim_text (.vStr p)).2 = false := by
    simpa using hpkeep
  have hpipe : ('|' : Char) ∉ p := by
    unfold partsOfCell at hpmem
    split at hpmem
    · exact notMem_of_mem_splitOnChar hpmem
    · simp at hpmem
  exact keptText_of_clean hpipe hkeep

/-- On the transformed row, a second pass of the fragment loop rejects
nothing. -/
lemma second_pass_no_reject (i : Nat) (row : List PyVal) :
    ∀ p ∈ partsOfCell (((processRow i row).1).getD i .vNone),
      isRejected (clean_claim_text (.vStr p)).2 = false := by
  intro p hp
  rw [processRow_eq] at hp
  set K := keptFragments (partsOfCell (row.getD i .vNone)) with hK
  have hKinv : ∀ k ∈ K, KeptText k := keptText_all i row
  by_cases hlen : i < row.length
  · have hcell : ((row.set i (.vStr (pyJoin " | ".data K))).getD i .vNone) =
        .vStr (pyJoin " | ".data K) := by
      simp [List.getD_eq_getElem?_getD, List.getElem?_set_self hlen]
    rw [hcell] at hp
    unfold partsOfCell at hp
    by_cases hJ : pyTruthy (.vStr (pyJoin " | ".data K)) = true
    · rw [if_pos hJ] at hp
      have hkne : K ≠ [] := by
        intro h0
        rw [h0] at hJ
        simp [pyTruthy, pyJoin] at hJ
      have hpipes : ∀ k ∈ K, ('|' : Char) ∉ k :=
        fun k hk => (hKinv k hk).1
      obtain ⟨k, hkmem, a, b, hab, ha, hb⟩ :=
        mem_splitOnChar_pyJoin_sp _ hkne hpipes p hp
      exact clean_not_rejected_of_padded_kept (hKinv k hkmem) hab ha hb
    · rw [if_neg hJ] at hp
      simp at hp
  · have hset : row.set i (.vStr (pyJoin " | ".data K)) = row :=
      List.set_eq_of_length_le (Nat.le_of_not_lt hlen)
    rw [hset] at hp
    have hp' : p ∈ partsOfCell (row.getD i .vNone) := hp
    have hnone : row.getD i .vNone = .vNone := by
      simp [List.getD_eq_getElem?_getD,
        List.getElem?_eq_none (Nat.le_of_not_lt hlen)]
    rw [hnone] at hp'
    simp [partsOfCell, pyTruthy] at hp'

/-- A fragment list with no rejected fragment contributes no rejected
records. -/
lemma rejectedRecords_eq_nil {key : PyVal} {parts : List (List Char)}
    (h : ∀ p ∈ parts, isRejected (clean_claim_text (.vStr p)).2 = false) :
    rejectedRecords key parts = [] := by
  unfold rejectedRecords
  rw [List.map_eq_nil_iff, List.filter_eq_nil_iff]
  intro p hp
  simp [h p hp]

/-- C5: the details transformation is idempotent with respect to rejection:
a second run on the cleaned table of a successful run produces a rejected
table holding only its header row. -/
theorem process_details_sheet_idempotent
    (table cleaned rejected : List (List PyVal))
    (h : process_details_sheet table = .ok (cleaned, rejected)) :
    ∃ cleaned₂, process_details_sheet cleaned = .ok (cleaned₂, [rejHeaderRow]) := by
  simp only [process_details_sheet] at h
  split at h
  · exact absurd h (by simp)
  next i hidx =>
    simp only [Except.ok.injEq, Prod.mk.injEq] at h
    obtain ⟨hcl, hrj⟩ := h
    refine ⟨table.headD [] ::
      ((List.map (processRow i) table.tail).map (fun p => p.1)).map
        (fun row => (processRow i row).1), ?_⟩
    simp only [process_details_sheet, ← hcl, List.headD_cons, List.tail_cons]
    simp only [hidx]
    have hflat : (((List.map (processRow i) table.tail).map
        (fun p => p.1)).map (processRow i)).flatMap (fun p => p.2) = [] := by
      rw [List.flatMap_eq_nil_iff]
      intro q hq
      rw [List.mem_map] at hq
      obtain ⟨r₂, hr₂, rfl⟩ := hq
      rw [List.mem_map] at hr₂
      obtain ⟨pair, hpair, rfl⟩ := hr₂
      rw [List.mem_map] at hpair
      obtain ⟨row, _, rfl⟩ := hpair
      rw [processRow_eq i ((processRow i row).1)]
      exact rejectedRecords_eq_nil (second_pass_no_reject i row)
    rw [hflat]
    rw [List.map_map]
    rfl

/-- Witness for C5 on a table with one data row holding a kept and a
rejected fragment. -/
theorem process_details_sheet_idempotent_witness :
    ∃ cleaned₂,
      process_details_sheet
        [[PyVal.vStr "Key".data, PyVal.vStr "Independent Claims".data],
         [PyVal.vStr "K1".data, PyVal.vStr "foo".data]] =
      .ok (cleaned₂, [rejHeaderRow]) :=
  process_details_sheet_idempotent
    [[PyVal.vStr "Key".data, PyVal.vStr "Independent Claims".data],
     [PyVal.vStr "K1".data, PyVal.vStr "foo | (canceled)".data]]
    [[PyVal.vStr "Key".data, PyVal.vStr "Independent Claims".data],
     [PyVal.vStr "K1".data, PyVal.vStr "foo".data]]
    [rejHeaderRow,
     [PyVal.vStr "K1".data, PyVal.vStr "(canceled)".data,
      PyVal.vStr "cancel, probable dependent".data]]
    rfl

/-! ### C2: the earliest-publication augmentation -/

/-- Python string `<` never holds reflexively. -/
lemma strLt_irrefl (a : List Char) : strLt a a = false := by
  induction a with
  | nil => rfl
  | cons c cs ih => simp [strLt, ih]

/-- Python string `<` is transitive. -/
lemma strLt_trans : ∀ {a b c : List Char}, strLt a b = true →
    strLt b c = true → strLt a c = true := by
  intro a
  induction a with
  | nil =>
    intro b c h₁ h₂
    cases b with
    | nil => simp [strLt] at h₁
    | cons y ys =>
      cases c with
      | nil => simp [strLt] at h₂
      | cons z zs => simp [strLt]
  | cons x xs ih =>
    intro b c h₁ h₂
    cases b with
    | nil => simp [strLt] at h₁
    | cons y ys =>
      cases c with
      | nil => simp [strLt] at h₂
      | cons z zs =>
        simp only [strLt] at h₁ h₂ ⊢
        by_cases hxy : x = y
        · subst hxy
          rw [if_pos rfl] at h₁
          by_cases hyz : x = z
          · subst hyz
            rw [if_pos rfl] at h₂ ⊢
            exact ih h₁ h₂
          · rw [if_neg hyz] at h₂ ⊢
            exact h₂
        · rw [if_neg hxy] at h₁
          by_cases hyz : y = z
          · subst hyz
            rw [if_neg hxy]
            exact h₁
          · rw [if_neg hyz] at h₂
            have hxz : x < z :=
              lt_trans (of_decide_eq_true h₁) (of_decide_eq_true h₂)
            rw [if_neg (ne_of_lt hxz)]
            exact decide_eq_true hxz

/-- Python string `<` is trichotomous. -/
lemma strLt_total : ∀ (a b : List Char),
    strLt a b = true ∨ a = b ∨ strLt b a = true := by
  intro a
  induction a with
  | nil =>
    intro b
    cases b with
    | nil => exact Or.inr (Or.inl rfl)
    | cons y ys => exact Or.inl rfl
  | cons x xs ih =>
    intro b
    cases b with
    | nil => exact Or.inr (Or.inr rfl)
    | cons y ys =>
      by_cases hxy : x = y
      · subst hxy
        rcases ih ys with h | h | h
        · exact Or.inl (by simp [strLt, h])
        · exact Or.inr (Or.inl (by rw [h]))
        · exact Or.inr (Or.inr (by simp [strLt, h]))
      · rcases lt_or_gt_of_ne hxy with hlt | hgt
        · exact Or.inl (by simp only [strLt, if_neg hxy]; exact decide_eq_true hlt)
        · exact Or.inr (Or.inr (by
            simp only [strLt, if_neg (Ne.symm hxy)]
            exact decide_eq_true hgt))

/-- The NaT-last date order is reflexive. -/
lemma dateLe_refl (d : Option Nat) : dateLe d d = true := by
  cases d <;> simp [dateLe]

/-- The NaT-last date order is total. -/
lemma dateLe_total (d₁ d₂ : Option Nat) :
    dateLe d₁ d₂ = true ∨ dateLe d₂ d₁ = true := by
  cases d₁ with
  | none => exact Or.inr (by cases d₂ <;> rfl)
  | some a =>
    cases d₂ with
    | none => exact Or.inl rfl
    | some b =>
      simp only [dateLe, decide_eq_true_eq]
      omega

/-- The NaT-last date order is transitive. -/
lemma dateLe_trans {d₁ d₂ d₃ : Option Nat} (h₁ : dateLe d₁ d₂ = true)
    (h₂ : dateLe d₂ d₃ = true) : dateLe d₁ d₃ = true := by
  cases d₃ with
  | none => cases d₁ <;> rfl
  | some c =>
    cases d₂ with
    | none => simp [dateLe] at h₂
    | some b =>
      cases d₁ with
      | none => simp [dateLe] at h₁
      | some a =>
        simp only [dateLe, decide_eq_true_eq] at h₁ h₂ ⊢
        omega

/-- The sort-key order on family rows is reflexive. -/
lemma famLe_refl (r : FamRow) : famLe r r := by
  simp [famLe, strLt_irrefl, dateLe_refl]

instance : IsTrans FamRow famLe := ⟨by
  intro r₁ r₂ r₃ h₁ h₂
  simp only [famLe, Bool.or_eq_true, Bool.and_eq_true, decide_eq_true_eq]
    at h₁ h₂ ⊢
  rcases h₁ with h₁ | ⟨he₁, hd₁⟩
  · rcases h₂ with h₂ | ⟨he₂, hd₂⟩
    · exact Or.inl (strLt_trans h₁ h₂)
    · exact Or.inl (by rw [← he₂]; exact h₁)
  · rcases h₂ with h₂ | ⟨he₂, hd₂⟩
    · exact Or.inl (by rw [he₁]; exact h₂)
    · exact Or.inr ⟨he₁.trans he₂, dateLe_trans hd₁ hd₂⟩⟩

instance : IsTotal FamRow famLe := ⟨by
  intro r₁ r₂
  simp only [famLe, Bool.or_eq_true, Bool.and_eq_true, decide_eq_true_eq]
  rcases strLt_total r₁.app r₂.app with h | h | h
  · exact Or.inl (Or.inl h)
  · rcases dateLe_total r₁.date r₂.date with hd | hd
    · exact Or.inl (Or.inr ⟨h, hd⟩)
    · exact Or.inr (Or.inr ⟨h.symm, hd⟩)
  · exact Or.inr (Or.inl h)⟩

/-- Between rows of equal application number, the sort key is the date. -/
lemma dateLe_of_famLe {r₁ r₂ : FamRow} (he : r₁.app = r₂.app)
    (h : famLe r₁ r₂) : dateLe r₁.date r₂.date = true := by
  simp only [famLe, Bool.or_eq_true, Bool.and_eq_true, decide_eq_true_eq] at h
  rcases h with h | ⟨_, hd⟩
  · rw [he, strLt_irrefl] at h
    exact Bool.noConfusion h
  · exact hd

/-- Filtering by a predicate implied by the search predicate does not change
the first hit. -/
lemma find?_filter_eq {α : Type} (p q : α → Bool) (l : List α)
    (himp : ∀ x, p x = true → q x = true) :
    (l.filter q).find? p = l.find? p := by
  induction l with
  | nil => rfl
  | cons x xs ih =>
    by_cases hp : p x = true
    · rw [List.filter_cons_of_pos (himp x hp), List.find?_cons_of_pos _ hp,
        List.find?_cons_of_pos _ hp]
    · by_cases hq : q x = true
      · rw [List.filter_cons_of_pos hq, List.find?_cons_of_neg _ hp,
          List.find?_cons_of_neg _ hp, ih]
      · rw [List.filter_cons_of_neg hq, List.find?_cons_of_neg _ hp, ih]

/-- Deduplication by application number does not change the first row found
for a given application number. -/
lemma find?_dropDupApp (a : List Char) :
    ∀ l : List FamRow,
      (dropDupApp l).find? (fun r => decide (r.app = a)) =
        l.find? (fun r => decide (r.app = a)) := by
  intro l
  induction l with
  | nil => rfl
  | cons r rs ih =>
    rw [show dropDupApp (r :: rs) =
      r :: (dropDupApp rs).filter (fun r₂ => decide (r₂.app ≠ r.app)) from rfl]
    by_cases hr : decide (r.app = a) = true
    · rw [List.find?_cons_of_pos (p := fun (x : FamRow) => decide (x.app = a)) _ hr,
        List.find?_cons_of_pos (p := fun (x : FamRow) => decide (x.app = a)) _ hr]
    · rw [List.find?_cons_of_neg (p := fun (x : FamRow) => decide (x.app = a)) _ hr,
        List.find?_cons_of_neg (p := fun (x : FamRow) => decide (x.app = a)) _ hr, ← ih]
      apply find?_filter_eq
      intro x hx
      have hxa : x.app = a := of_decide_eq_true hx
      have hra : r.app ≠ a := by simpa using hr
      exact decide_eq_true (fun he => hra (he ▸ hxa))

/-- In a sorted list, the first row found for an application number is
minimal in the sort order among all rows with that application number. -/
lemma sorted_first_minimal {l : List FamRow} (hs : l.Pairwise famLe)
    {a : List Char} {r : FamRow}
    (hf : l.find? (fun r => decide (r.app = a)) = some r) :
    r.app = a ∧ ∀ r' ∈ l, r'.app = a → famLe r r' := by
  rw [List.find?_eq_some] at hf
  obtain ⟨hpr, as, bs, rfl, hnotp⟩ := hf
  refine ⟨of_decide_eq_true hpr, ?_⟩
  intro r' hr' ha'
  rcases List.mem_append.mp hr' with hmem | hmem
  · have h1 := hnotp r' hmem
    simp at h1
    exact absurd ha' h1
  · rcases List.mem_cons.mp hmem with rfl | hmem
    · exact famLe_refl _
    · have hpw : (r :: bs).Pairwise famLe := (List.pairwise_append.mp hs).2.1
      exact (List.pairwise_cons.mp hpw).1 r' hmem

/-- When an application number has at least one family row with a parseable
date, the earliest-publication lookup yields the publication number of an
earliest-dated row for that application number. -/
lemma earliestPubMap_isEarliest {rows : List FamRow} {a : List Char}
    (hd : ∃ r ∈ rows, r.app = a ∧ r.date.isSome = true) :
    ∃ r₀, IsEarliestFor rows a r₀ ∧ earliestPubMap rows a = some r₀.pub := by
  obtain ⟨r₁, hr₁, ha₁, hd₁⟩ := hd
  have hperm : (sortedFam rows).Perm rows := List.perm_insertionSort famLe rows
  have hsorted : (sortedFam rows).Pairwise famLe :=
    List.sorted_insertionSort famLe rows
  have hmem : r₁ ∈ sortedFam rows := hperm.mem_iff.mpr hr₁
  have hfindSome : ((sortedFam rows).find?
      (fun r => decide (r.app = a))).isSome := by
    rw [List.find?_isSome]
    exact ⟨r₁, hmem, decide_eq_true ha₁⟩
  obtain ⟨r₀, hf⟩ := Option.isSome_iff_exists.mp hfindSome
  obtain ⟨hr₀a, hmin⟩ := sorted_first_minimal hsorted hf
  have hr₀mem : r₀ ∈ rows := hperm.mem_iff.mp (List.mem_of_find?_eq_some hf)
  have hminrows : ∀ r' ∈ rows, r'.app = a → famLe r₀ r' :=
    fun r' hr' ha' => hmin r' (hperm.mem_iff.mpr hr') ha'
  obtain ⟨d₁, hd₁'⟩ := Option.isSome_iff_exists.mp hd₁
  have hdle₁ : dateLe r₀.date r₁.date = true :=
    dateLe_of_famLe (by rw [hr₀a, ha₁]) (hminrows r₁ hr₁ ha₁)
  have hd₀ : r₀.date.isSome = true := by
    cases hd₀' : r₀.date with
    | none => rw [hd₀', hd₁'] at hdle₁; simp [dateLe] at hdle₁
    | some d => simp
  obtain ⟨d₀, hd₀'⟩ := Option.isSome_iff_exists.mp hd₀
  refine ⟨r₀, ⟨hr₀mem, hr₀a, d₀, hd₀', ?_⟩, ?_⟩
  · intro r' hr' ha' d' hdd'
    have hdle := dateLe_of_famLe (by rw [hr₀a, ha']) (hminrows r' hr' ha')
    rw [hd₀', hdd'] at hdle
    simpa [dateLe] using hdle
  · unfold earliestPubMap
    rw [find?_dropDupApp, hf]
    rfl

/-- C2 counterexample: a family row with a parseable date but an empty
Publication Number is skipped by the falsy guard of `concat_published`, so
the final member set does not contain the earliest-dated publication's
number. -/
theorem concat_published_counterexample :
    (∃ r ∈ [(⟨[], .vNone, "A".data, some 0⟩ : FamRow)],
        r.app = "A".data ∧ r.date.isSome = true) ∧
    ¬ (∃ r ∈ [(⟨[], .vNone, "A".data, some 0⟩ : FamRow)],
        IsEarliestFor [(⟨[], .vNone, "A".data, some 0⟩ : FamRow)] "A".data r ∧
        r.pub ∈ splitOnChar '|' (concat_published "X".data "A".data
          [(⟨[], .vNone, "A".data, some 0⟩ : FamRow)])) := by
  decide

/-- C2 (amended): whenever an application number has a family row with a
parseable Publication Date, and every earliest-dated publication number for
it is a non-empty, pipe-free string, the final pipe-joined INPADOC Family
Members value contains the publication number of an earliest-dated
publication for that application number — even if it was absent from the
original members list.  (The code's `if not earliest_pub` guard silently
keeps the existing value when the earliest publication number is empty, and
a number containing `|` would be split apart by the pipe join.) -/
theorem concat_published_earliest (rows : List FamRow) (a existing : List Char)
    (hd : ∃ r ∈ rows, r.app = a ∧ r.date.isSome = true)
    (hp : ∀ r ∈ rows, IsEarliestFor rows a r →
      r.pub ≠ [] ∧ ('|' : Char) ∉ r.pub) :
    ∃ r, IsEarliestFor rows a r ∧
      r.pub ∈ splitOnChar '|' (concat_published existing a rows) := by
  obtain ⟨r₀, hIE, hmap⟩ := earliestPubMap_isEarliest hd
  obtain ⟨hpne, hppipe⟩ := hp r₀ hIE.1 hIE
  refine ⟨r₀, hIE, ?_⟩
  simp only [concat_published, hmap]
  rw [if_neg (fun hc => hpne (List.isEmpty_iff.mp hc))]
  have hmemfin : r₀.pub ∈ finalMembersList existing r₀.pub := by
    unfold finalMembersList
    rw [List.mem_insertionSort]
    split
    · assumption
    · exact List.mem_append_right _ (List.mem_singleton.mpr rfl)
  have hpipefree : ∀ q ∈ finalMembersList existing r₀.pub,
      ('|' : Char) ∉ q := by
    intro q hq
    unfold finalMembersList at hq
    rw [List.mem_insertionSort] at hq
    have hq' : q ∈ existingSet existing ∨ q = r₀.pub := by
      split at hq
      · exact Or.inl hq
      · rcases List.mem_append.mp hq with h | h
        · exact Or.inl h
        · exact Or.inr (List.mem_singleton.mp h)
    rcases hq' with hq' | rfl
    · unfold existingSet at hq'
      split at hq'
      · simp at hq'
      · exact notMem_of_mem_splitOnChar (List.mem_dedup.mp hq')
    · exact hppipe
  have hfne : finalMembersList existing r₀.pub ≠ [] :=
    List.ne_nil_of_mem hmemfin
  rw [splitOnChar_pyJoin _ hfne hpipefree]
  exact hmemfin

/-- Witness for C2 (amended) on the spec's own two-row example. -/
theorem concat_published_earliest_witness :
    ∃ r, IsEarliestFor
        [(⟨"US123".data, .vStr "Simple1".data, "APP1".data, some 20200101⟩ : FamRow),
         (⟨"US555".data, .vStr "Simple1".data, "APP1".data, some 20190601⟩ : FamRow)]
        "APP1".data r ∧
      r.pub ∈ splitOnChar '|' (concat_published "US999".data "APP1".data
        [(⟨"US123".data, .vStr "Simple1".data, "APP1".data, some 20200101⟩ : FamRow),
         (⟨"US555".data, .vStr "Simple1".data, "APP1".data, some 20190601⟩ : FamRow)]) :=
  concat_published_earliest _ _ _ (by decide) (by decide)

end PatentClaims
